import Mathlib

/-!
A shallow embedding of the iroh-bytes flat file store
(`src/iroh-bytes/src/store/flat.rs` and `src/iroh-bytes/src/util.rs`),
with theorems settling the specification's claims about it.

Byte strings (Rust `&[u8]`, `str`, `PathBuf`) are modelled as `List Nat`
with entries below 256 where that matters; machine integers are `Nat`
(sizes never overflow in the claims considered here). Fallible code
returns `Option` or `Except`. The embedded metadata index is a record of
key-to-value maps, and the filesystem is a map from paths to contents.
-/

namespace IrohFlat

/-- Byte strings: file contents, text and paths are lists of byte values. -/
abbrev ByteStr := List Nat

/-- A 32-byte BLAKE3 hash value, as its list of bytes (util.rs `Hash`). -/
abbrev Hash := List Nat

/-- A 16-byte random uuid disambiguating partial downloads of one hash. -/
abbrev Uuid := List Nat

/-- A filesystem path, as its byte string (Rust `PathBuf`). -/
abbrev FsPath := List Nat

/-! ## Hex codec (the hex crate, as used by the filename codec) -/

/-- Lowercase hex digit character code for a value below 16. -/
def hexDigitChar (v : Nat) : Nat := if v < 10 then 48 + v else 87 + v

/-- Hex-encode a byte string to lowercase hex character codes (hex::encode). -/
def hexEncode (bs : ByteStr) : ByteStr :=
  bs.flatMap (fun b => [hexDigitChar (b / 16), hexDigitChar (b % 16)])

/-- Value of one hex digit character; either case accepted (hex crate decode). -/
def hexDigitVal (c : Nat) : Option Nat :=
  if 48 ≤ c ∧ c ≤ 57 then some (c - 48)
  else if 97 ≤ c ∧ c ≤ 102 then some (c - 87)
  else if 65 ≤ c ∧ c ≤ 70 then some (c - 55)
  else none

/-- Hex-decode a character string to bytes; fails on odd length or a bad
digit (hex::decode; hex::decode_to_slice adds an exact-length check, done
at the call sites below). -/
def hexDecode : ByteStr → Option ByteStr
  | [] => some []
  | [_] => none
  | hi :: lo :: rest =>
    match hexDigitVal hi, hexDigitVal lo, hexDecode rest with
    | some h, some l, some r => some ((16 * h + l) :: r)
    | _, _, _ => none

/-! ## The filename codec (flat.rs `FileName`) -/

/-- The character code of a dot. -/
def dotChar : Nat := 46

/-- The character code of a dash. -/
def dashChar : Nat := 45

/-- Character codes of the `data` extension. -/
def extData : ByteStr := [100, 97, 116, 97]

/-- Character codes of the `obao4` extension (flat.rs OUTBOARD_EXT). -/
def extObao4 : ByteStr := [111, 98, 97, 111, 52]

/-- Character codes of the `paths` extension. -/
def extPaths : ByteStr := [112, 97, 116, 104, 115]

/-- Character codes of the `meta` extension. -/
def extMeta : ByteStr := [109, 101, 116, 97]

/-- A file name that indicates the purpose of the file (flat.rs `FileName`). -/
inductive FileName where
  | PartialData (hash : Hash) (uuid : Uuid)
  | Data (hash : Hash)
  | PartialOutboard (hash : Hash) (uuid : Uuid)
  | Outboard (hash : Hash)
  | Paths (hash : Hash)
  | Meta (name : ByteStr)
deriving DecidableEq

/-- Render a file name, mirroring flat.rs `impl fmt::Display for FileName`. -/
def FileName.format : FileName → ByteStr
  | .PartialData h u => (hexEncode h ++ dashChar :: hexEncode u) ++ dotChar :: extData
  | .PartialOutboard h u => (hexEncode h ++ dashChar :: hexEncode u) ++ dotChar :: extObao4
  | .Paths h => hexEncode h ++ dotChar :: extPaths
  | .Data h => hexEncode h ++ dotChar :: extData
  | .Outboard h => hexEncode h ++ dotChar :: extObao4
  | .Meta n => hexEncode n ++ dotChar :: extMeta

/-- Split at the first occurrence of `sep` (Rust str::split_once). -/
def splitOnce (sep : Nat) : ByteStr → Option (ByteStr × ByteStr)
  | [] => none
  | c :: rest =>
    if c = sep then some ([], rest)
    else
      match splitOnce sep rest with
      | some (x, y) => some (c :: x, y)
      | none => none

/-- Split at the last occurrence of `sep` (Rust str::rsplit_once). -/
def rsplitOnce (sep : Nat) : ByteStr → Option (ByteStr × ByteStr)
  | [] => none
  | c :: rest =>
    match rsplitOnce sep rest with
    | some (x, y) => some (c :: x, y)
    | none => if c = sep then some ([], rest) else none

/-- Remove one leading dot if present (the parser's optional dot strip). -/
def stripLeadingDot (l : ByteStr) : ByteStr :=
  match l with
  | c :: rest => if c = dotChar then rest else l
  | [] => l

/-- Parse a file name, mirroring flat.rs `impl FromStr for FileName`:
split on the last dot, strip an optional leading dot, split the base on
the first dash; hex segments must decode to exactly 32 or 16 bytes. -/
def FileName.fromStr (s : ByteStr) : Option FileName :=
  match rsplitOnce dotChar s with
  | none => none
  | some (base0, ext) =>
    let base := stripLeadingDot base0
    match splitOnce dashChar base with
    | some (hashText, uuidText) =>
      match hexDecode uuidText with
      | none => none
      | some uuid =>
        if uuid.length = 16 then
          if ext = extData then
            match hexDecode hashText with
            | some h => if h.length = 32 then some (.PartialData h uuid) else none
            | none => none
          else if ext = extObao4 then
            match hexDecode hashText with
            | some h => if h.length = 32 then some (.PartialOutboard h uuid) else none
            | none => none
          else none
        else none
    | none =>
      if ext = extMeta then
        match hexDecode base with
        | some d => some (.Meta d)
        | none => none
      else
        match hexDecode base with
        | some h =>
          if h.length = 32 then
            if ext = extData then some (.Data h)
            else if ext = extObao4 then some (.Outboard h)
            else if ext = extPaths then some (.Paths h)
            else none
          else none
        | none => none

/-- The byte lists a `FileName` value carries in the Rust types: a hash is
32 bytes, a uuid 16 bytes, all entries below 256. -/
def FileName.wellFormed : FileName → Prop
  | .PartialData h u => h.length = 32 ∧ u.length = 16 ∧ (∀ b ∈ h, b < 256) ∧ ∀ b ∈ u, b < 256
  | .PartialOutboard h u => h.length = 32 ∧ u.length = 16 ∧ (∀ b ∈ h, b < 256) ∧ ∀ b ∈ u, b < 256
  | .Data h => h.length = 32 ∧ ∀ b ∈ h, b < 256
  | .Outboard h => h.length = 32 ∧ ∀ b ∈ h, b < 256
  | .Paths h => h.length = 32 ∧ ∀ b ∈ h, b < 256
  | .Meta n => ∀ b ∈ n, b < 256

/-! ### Hex and split lemmas -/

lemma hexEncode_nil : hexEncode [] = [] := rfl

lemma hexEncode_cons (b : Nat) (rest : ByteStr) :
    hexEncode (b :: rest) = hexDigitChar (b / 16) :: hexDigitChar (b % 16) :: hexEncode rest := by
  simp [hexEncode]

lemma hexDigitVal_hexDigitChar : ∀ v < 16, hexDigitVal (hexDigitChar v) = some v := by decide

lemma hexDecode_hexEncode : ∀ bs : ByteStr, (∀ b ∈ bs, b < 256) →
    hexDecode (hexEncode bs) = some bs := by
  intro bs
  induction bs with
  | nil => intro _; rfl
  | cons b rest ih =>
    intro hb
    have hb1 : b < 256 := hb b (by simp)
    have h1 : b / 16 < 16 := by omega
    have h2 : b % 16 < 16 := by omega
    rw [hexEncode_cons, hexDecode, hexDigitVal_hexDigitChar _ h1,
      hexDigitVal_hexDigitChar _ h2, ih (fun x hx => hb x (by simp [hx]))]
    have : 16 * (b / 16) + b % 16 = b := by omega
    simp [this]

lemma hexEncode_length (bs : ByteStr) : (hexEncode bs).length = 2 * bs.length := by
  induction bs with
  | nil => rfl
  | cons b rest ih => rw [hexEncode_cons]; simp [ih]; omega

lemma hexDigitChar_ne_sep (v : Nat) : hexDigitChar v ≠ dotChar ∧ hexDigitChar v ≠ dashChar := by
  unfold hexDigitChar dotChar dashChar
  split <;> omega

lemma dot_not_mem_hexEncode (bs : ByteStr) : dotChar ∉ hexEncode bs := by
  intro hmem
  unfold hexEncode at hmem
  rw [List.mem_flatMap] at hmem
  obtain ⟨b, _, hb⟩ := hmem
  simp only [List.mem_cons, List.not_mem_nil, or_false] at hb
  rcases hb with h | h
  · exact (hexDigitChar_ne_sep (b / 16)).1 h.symm
  · exact (hexDigitChar_ne_sep (b % 16)).1 h.symm

lemma dash_not_mem_hexEncode (bs : ByteStr) : dashChar ∉ hexEncode bs := by
  intro hmem
  unfold hexEncode at hmem
  rw [List.mem_flatMap] at hmem
  obtain ⟨b, _, hb⟩ := hmem
  simp only [List.mem_cons, List.not_mem_nil, or_false] at hb
  rcases hb with h | h
  · exact (hexDigitChar_ne_sep (b / 16)).2 h.symm
  · exact (hexDigitChar_ne_sep (b % 16)).2 h.symm

lemma rsplitOnce_of_not_mem {sep : Nat} : ∀ {l : ByteStr}, sep ∉ l → rsplitOnce sep l = none := by
  intro l
  induction l with
  | nil => intro _; rfl
  | cons c rest ih =>
    intro hmem
    have hc : c ≠ sep := fun h => hmem (by simp [h])
    have hrest : sep ∉ rest := fun h => hmem (by simp [h])
    rw [rsplitOnce, ih hrest]
    simp [hc]

lemma rsplitOnce_append {sep : Nat} (a b : ByteStr) (hb : sep ∉ b) :
    rsplitOnce sep (a ++ sep :: b) = some (a, b) := by
  induction a with
  | nil => rw [List.nil_append, rsplitOnce, rsplitOnce_of_not_mem hb]; simp
  | cons c rest ih => rw [List.cons_append, rsplitOnce, ih]

lemma splitOnce_of_not_mem {sep : Nat} : ∀ {l : ByteStr}, sep ∉ l → splitOnce sep l = none := by
  intro l
  induction l with
  | nil => intro _; rfl
  | cons c rest ih =>
    intro hmem
    have hc : c ≠ sep := fun h => hmem (by simp [h])
    have hrest : sep ∉ rest := fun h => hmem (by simp [h])
    rw [splitOnce, if_neg hc, ih hrest]

lemma splitOnce_append {sep : Nat} (a b : ByteStr) (ha : sep ∉ a) :
    splitOnce sep (a ++ sep :: b) = some (a, b) := by
  induction a with
  | nil => rw [List.nil_append, splitOnce]; simp
  | cons c rest ih =>
    have hc : c ≠ sep := fun h => ha (by simp [h])
    have hrest : sep ∉ rest := fun h => ha (by simp [h])
    rw [List.cons_append, splitOnce, if_neg hc, ih hrest]

lemma stripLeadingDot_of_head_ne {l : ByteStr} (h : ∀ c, l.head? = some c → c ≠ dotChar) :
    stripLeadingDot l = l := by
  cases l with
  | nil => rfl
  | cons c rest =>
    have : c ≠ dotChar := h c rfl
    simp [stripLeadingDot, this]

lemma stripLeadingDot_hexEncode_append (bs t : ByteStr) (hne : bs ≠ []) :
    stripLeadingDot (hexEncode bs ++ t) = hexEncode bs ++ t := by
  cases bs with
  | nil => exact absurd rfl hne
  | cons b rest =>
    apply stripLeadingDot_of_head_ne
    intro c hc
    rw [hexEncode_cons] at hc
    simp at hc
    rw [← hc]
    exact (hexDigitChar_ne_sep (b / 16)).1

lemma stripLeadingDot_hexEncode (bs : ByteStr) :
    stripLeadingDot (hexEncode bs) = hexEncode bs := by
  cases bs with
  | nil => rfl
  | cons b rest =>
    apply stripLeadingDot_of_head_ne
    intro c hc
    rw [hexEncode_cons] at hc
    simp at hc
    rw [← hc]
    exact (hexDigitChar_ne_sep (b / 16)).1

/-! ### The filename round-trip (claim C5) -/

/-- C5: for every `FileName` value of any of the six variants (with the
byte lengths its Rust type enforces), parsing the formatted string gives
the value back: `FileName::from_str(x.to_string()) == Ok(x)`. -/
theorem filename_roundtrip (x : FileName) (hx : x.wellFormed) :
    FileName.fromStr x.format = some x := by
  cases x with
  | PartialData h u =>
    obtain ⟨hlen, ulen, hbnd, ubnd⟩ := hx
    have hne : h ≠ [] := by intro he; rw [he] at hlen; simp at hlen
    rw [FileName.format, FileName.fromStr, rsplitOnce_append _ _ (by decide)]
    simp only [stripLeadingDot_hexEncode_append _ _ hne,
      splitOnce_append _ _ (dash_not_mem_hexEncode h), hexDecode_hexEncode u ubnd,
      hexDecode_hexEncode h hbnd]
    simp [ulen, hlen]
  | PartialOutboard h u =>
    obtain ⟨hlen, ulen, hbnd, ubnd⟩ := hx
    have hne : h ≠ [] := by intro he; rw [he] at hlen; simp at hlen
    rw [FileName.format, FileName.fromStr, rsplitOnce_append _ _ (by decide)]
    simp only [stripLeadingDot_hexEncode_append _ _ hne,
      splitOnce_append _ _ (dash_not_mem_hexEncode h), hexDecode_hexEncode u ubnd,
      hexDecode_hexEncode h hbnd]
    simp [ulen, hlen, extObao4, extData]
  | Data h =>
    obtain ⟨hlen, hbnd⟩ := hx
    rw [FileName.format, FileName.fromStr, rsplitOnce_append _ _ (by decide)]
    simp only [stripLeadingDot_hexEncode,
      splitOnce_of_not_mem (dash_not_mem_hexEncode h), hexDecode_hexEncode h hbnd]
    simp [hlen, extData, extMeta]
  | Outboard h =>
    obtain ⟨hlen, hbnd⟩ := hx
    rw [FileName.format, FileName.fromStr, rsplitOnce_append _ _ (by decide)]
    simp only [stripLeadingDot_hexEncode,
      splitOnce_of_not_mem (dash_not_mem_hexEncode h), hexDecode_hexEncode h hbnd]
    simp [hlen, extObao4, extMeta, extData]
  | Paths h =>
    obtain ⟨hlen, hbnd⟩ := hx
    rw [FileName.format, FileName.fromStr, rsplitOnce_append _ _ (by decide)]
    simp only [stripLeadingDot_hexEncode,
      splitOnce_of_not_mem (dash_not_mem_hexEncode h), hexDecode_hexEncode h hbnd]
    simp [hlen, extPaths, extMeta, extData, extObao4]
  | Meta n =>
    have hbnd := hx
    rw [FileName.format, FileName.fromStr, rsplitOnce_append _ _ (by decide)]
    simp only [stripLeadingDot_hexEncode,
      splitOnce_of_not_mem (dash_not_mem_hexEncode n), hexDecode_hexEncode n hbnd]
    simp

/-- C5 witness: the round-trip theorem applied to one concrete data file
name. -/
theorem filename_roundtrip_witness :
    FileName.fromStr (FileName.format (.Data (List.replicate 32 171))) =
      some (.Data (List.replicate 32 171)) :=
  filename_roundtrip _ (by unfold FileName.wellFormed; exact ⟨by decide, by decide⟩)

/-! ## Big-endian digit strings (used by the hash display codec, claim C9) -/

/-- Big-endian value of a digit string in the given base. -/
def beToNat (base : Nat) (l : List Nat) : Nat := l.foldl (fun a d => a * base + d) 0

/-- Fixed-width big-endian digit string of a number in the given base. -/
def natToBE (base : Nat) : Nat → Nat → List Nat
  | 0, _ => []
  | k + 1, n => natToBE base k (n / base) ++ [n % base]

lemma beToNat_concat (base : Nat) (l : List Nat) (d : Nat) :
    beToNat base (l ++ [d]) = beToNat base l * base + d := by
  unfold beToNat
  rw [List.foldl_append]
  rfl

lemma natToBE_length (base k n : Nat) : (natToBE base k n).length = k := by
  induction k generalizing n with
  | zero => rfl
  | succ k ih => rw [natToBE]; simp [ih]

lemma natToBE_lt (base : Nat) (hb : 0 < base) :
    ∀ k n, ∀ d ∈ natToBE base k n, d < base := by
  intro k
  induction k with
  | zero => intro n d hd; simp [natToBE] at hd
  | succ k ih =>
    intro n d hd
    rw [natToBE] at hd
    rcases List.mem_append.1 hd with h | h
    · exact ih _ d h
    · simp at h
      rw [h]
      exact Nat.mod_lt _ hb

lemma natToBE_beToNat (base : Nat) (hb : 1 < base) :
    ∀ l : List Nat, (∀ d ∈ l, d < base) → natToBE base l.length (beToNat base l) = l := by
  intro l
  induction l using List.reverseRecOn with
  | nil => intro _; rfl
  | append_singleton l d ih =>
    intro hd
    have hdlt : d < base := hd d (by simp)
    rw [beToNat_concat]
    have hlen : (l ++ [d]).length = l.length + 1 := by simp
    rw [hlen, natToBE]
    have h1 : (beToNat base l * base + d) / base = beToNat base l := by
      rw [Nat.add_comm, Nat.add_mul_div_right _ _ (by omega : 0 < base),
        Nat.div_eq_of_lt hdlt]
      omega
    have h2 : (beToNat base l * base + d) % base = d := by
      rw [Nat.add_comm, Nat.add_mul_mod_self_right, Nat.mod_eq_of_lt hdlt]
    rw [h1, h2, ih (fun x hx => hd x (by simp [hx]))]

lemma beToNat_lt (base : Nat) :
    ∀ l : List Nat, (∀ d ∈ l, d < base) → beToNat base l < base ^ l.length := by
  intro l
  induction l using List.reverseRecOn with
  | nil => intro _; simp [beToNat]
  | append_singleton l d ih =>
    intro hd
    have hdlt : d < base := hd d (by simp)
    have hl : beToNat base l < base ^ l.length := ih (fun x hx => hd x (by simp [hx]))
    rw [beToNat_concat]
    have : (beToNat base l + 1) * base ≤ base ^ l.length * base :=
      Nat.mul_le_mul_right base hl
    calc beToNat base l * base + d < (beToNat base l + 1) * base := by
            rw [Nat.add_mul]; omega
      _ ≤ base ^ l.length * base := this
      _ = base ^ (l ++ [d]).length := by rw [← pow_succ]; simp

lemma beToNat_natToBE (base : Nat) (hb : 1 < base) :
    ∀ k n, n < base ^ k → beToNat base (natToBE base k n) = n := by
  intro k
  induction k with
  | zero =>
    intro n hn
    have : n = 0 := by simpa using hn
    rw [this]; rfl
  | succ k ih =>
    intro n hn
    rw [natToBE, beToNat_concat, ih (n / base) ?_, Nat.div_add_mod']
    rw [Nat.div_lt_iff_lt_mul (by omega : 0 < base), ← pow_succ]
    exact hn

/-! ## The hash display codec (util.rs `Hash` Display and FromStr) -/

/-- The 4-byte CID header: version 1, raw codec, blake3, 32-byte hash
(util.rs CID_PREFIX). -/
def cidPfx : ByteStr := [1, 85, 30, 32]

/-- util.rs Hash::as_cid_bytes: the CID header followed by the hash bytes. -/
def asCidBytes (a : Hash) : ByteStr := cidPfx ++ a

/-- ASCII lowercasing of one character code (make_ascii_lowercase). -/
def asciiLower (c : Nat) : Nat := if 65 ≤ c ∧ c ≤ 90 then c + 32 else c

/-- ASCII uppercasing of one character code (make_ascii_uppercase). -/
def asciiUpper (c : Nat) : Nat := if 97 ≤ c ∧ c ≤ 122 then c - 32 else c

/-- Character codes of the RFC 4648 base32 alphabet (data_encoding
BASE32_NOPAD): A..Z then 2..7. -/
def b32Alphabet : ByteStr :=
  [65, 66, 67, 68, 69, 70, 71, 72, 73, 74, 75, 76, 77, 78, 79, 80,
   81, 82, 83, 84, 85, 86, 87, 88, 89, 90, 50, 51, 52, 53, 54, 55]

/-- The alphabet character of a 5-bit value. -/
def b32Char (v : Nat) : Nat := b32Alphabet.getD v 0

/-- The 5-bit value of an alphabet character, if any. -/
def b32Val (c : Nat) : Option Nat :=
  let i := b32Alphabet.indexOf c
  if i < 32 then some i else none

/-- Decode a character string to 5-bit values; fails on a bad character. -/
def b32Vals : ByteStr → Option (List Nat)
  | [] => some []
  | c :: rest =>
    match b32Val c, b32Vals rest with
    | some v, some r => some (v :: r)
    | _, _ => none

/-- Models data_encoding BASE32_NOPAD.encode on the 36 cid bytes: the 288
input bits followed by two zero padding bits, read as 58 base-32 digits
most significant first, mapped through the alphabet. -/
def base32EncodeCid (bytes : ByteStr) : ByteStr :=
  (natToBE 32 58 (beToNat 256 bytes * 4)).map b32Char

/-- Models data_encoding BASE32_NOPAD.decode_mut of 58 characters into 36
bytes; rejects a character outside the alphabet and nonzero trailing bits. -/
def base32DecodeCid (chars : ByteStr) : Option ByteStr :=
  match b32Vals chars with
  | none => none
  | some vals =>
    let m := beToNat 32 vals
    if m % 4 = 0 then some (natToBE 256 36 (m / 4)) else none

/-- util.rs `impl fmt::Display for Hash`: the byte `b` followed by the
base32 encoding of the 36 cid bytes, the whole buffer lowercased. -/
def hashDisplay (a : Hash) : ByteStr :=
  (98 :: base32EncodeCid (asCidBytes a)).map asciiLower

/-- util.rs Hash::from_cid_bytes: requires length 36 and the CID header. -/
def hashFromCidBytes (bytes : ByteStr) : Option Hash :=
  if bytes.length = 36 ∧ bytes.take 4 = cidPfx then some (bytes.drop 4) else none

/-- util.rs `impl FromStr for Hash`. The branch for other lengths or other
multibase markers defers to the external multibase crate (out of scope per
the spec) and is modelled as a failure; the round-trip claim never reaches
it, since the display form always has length 59 and leading `b`. -/
def hashFromStr (s : ByteStr) : Option Hash :=
  if s.length = 59 ∧ s.head? = some 98 then
    match base32DecodeCid ((s.drop 1).map asciiUpper) with
    | some bytes => hashFromCidBytes bytes
    | none => none
  else none

/-! ### The hash display round-trip (claim C9) -/

lemma b32Char_case_roundtrip : ∀ v < 32, asciiUpper (asciiLower (b32Char v)) = b32Char v := by
  decide

lemma b32Val_b32Char : ∀ v < 32, b32Val (b32Char v) = some v := by decide

lemma b32Vals_map_b32Char : ∀ l : List Nat, (∀ v ∈ l, v < 32) →
    b32Vals (l.map b32Char) = some l := by
  intro l
  induction l with
  | nil => intro _; rfl
  | cons v rest ih =>
    intro hv
    rw [List.map_cons, b32Vals, b32Val_b32Char v (hv v (by simp)),
      ih (fun x hx => hv x (by simp [hx]))]

/-- C9: for every 32-byte array, formatting the hash to its display string
and parsing it back yields the hash: `a.to_string().parse() == Ok(Hash(a))`. -/
theorem hash_display_roundtrip (a : Hash) (hlen : a.length = 32)
    (hbnd : ∀ b ∈ a, b < 256) : hashFromStr (hashDisplay a) = some a := by
  have hcid_len : (asCidBytes a).length = 36 := by simp [asCidBytes, cidPfx, hlen]
  have hcid_bnd : ∀ b ∈ asCidBytes a, b < 256 := by
    intro b hb
    rcases List.mem_append.1 hb with h | h
    · unfold cidPfx at h
      simp only [List.mem_cons, List.not_mem_nil, or_false] at h
      rcases h with rfl | rfl | rfl | rfl <;> norm_num
    · exact hbnd b h
  have hNlt : beToNat 256 (asCidBytes a) < 256 ^ 36 := by
    rw [← hcid_len]
    exact beToNat_lt 256 _ hcid_bnd
  have hMlt : beToNat 256 (asCidBytes a) * 4 < 32 ^ 58 := by
    have hpow : (256 : Nat) ^ 36 * 4 = 32 ^ 58 := by norm_num
    omega
  have hdig_lt : ∀ d ∈ natToBE 32 58 (beToNat 256 (asCidBytes a) * 4), d < 32 :=
    natToBE_lt 32 (by norm_num) _ _
  have hdig_len : (natToBE 32 58 (beToNat 256 (asCidBytes a) * 4)).length = 58 :=
    natToBE_length _ _ _
  have hchars : (((natToBE 32 58 (beToNat 256 (asCidBytes a) * 4)).map b32Char).map
      asciiLower).map asciiUpper =
      (natToBE 32 58 (beToNat 256 (asCidBytes a) * 4)).map b32Char := by
    rw [List.map_map, List.map_map]
    apply List.map_congr_left
    intro d hd
    exact b32Char_case_roundtrip d (hdig_lt d hd)
  rw [hashDisplay, base32EncodeCid, hashFromStr]
  rw [if_pos ?hcond]
  case hcond =>
    constructor
    · simp [hdig_len]
    · simp [asciiLower]
  rw [List.map_cons, List.drop_succ_cons, List.drop_zero, hchars, base32DecodeCid,
    b32Vals_map_b32Char _ hdig_lt]
  simp only
  rw [beToNat_natToBE 32 (by norm_num) 58 _ hMlt]
  rw [if_pos (Nat.mul_mod_left _ 4), Nat.mul_div_cancel _ (by norm_num : (0:Nat) < 4)]
  have hback : natToBE 256 36 (beToNat 256 (asCidBytes a)) = asCidBytes a := by
    have := natToBE_beToNat 256 (by norm_num) (asCidBytes a) hcid_bnd
    rwa [hcid_len] at this
  rw [hback]
  show (if (asCidBytes a).length = 36 ∧ (asCidBytes a).take 4 = cidPfx
      then some ((asCidBytes a).drop 4) else none) = some a
  rw [if_pos ?hcid]
  case hcid =>
    refine ⟨hcid_len, ?_⟩
    rw [asCidBytes, List.take_left']
    rfl
  rw [asCidBytes, List.drop_left']
  rfl

/-- C9 witness: the round-trip theorem applied to one concrete 32-byte
array. -/
theorem hash_display_roundtrip_witness :
    hashFromStr (hashDisplay (List.replicate 32 171)) = some (List.replicate 32 171) :=
  hash_display_roundtrip _ (by decide) (by decide)

/-! ## The data model (flat.rs entry types and the metadata index) -/

/-- Error kinds surfaced by the store's operations (io::ErrorKind values
used in flat.rs). -/
inductive ErrKind where
  | InvalidInput
  | NotFound
  | IoFailure
deriving DecidableEq

/-- An entry for a complete blob (flat.rs `CompleteEntry`): the size, a
flag for ownership of the canonical data file, and the set of external
paths known to hold the same bytes (a BTreeSet, modelled as a `Finset`). -/
structure CompleteEntry where
  size : Nat
  owned_data : Bool
  external : Finset FsPath
deriving DecidableEq

/-- flat.rs CompleteEntry::default: size 0, not owned, no external paths. -/
def CompleteEntry.defaultEntry : CompleteEntry := ⟨0, false, ∅⟩

/-- flat.rs CompleteEntry::new_default: an owned entry of the given size. -/
def CompleteEntry.newDefault (size : Nat) : CompleteEntry := ⟨size, true, ∅⟩

/-- flat.rs CompleteEntry::new_external: an entry of the given size backed
only by the given external path. -/
def CompleteEntry.newExternal (size : Nat) (p : FsPath) : CompleteEntry := ⟨size, false, {p}⟩

/-- flat.rs CompleteEntry::union_with, returning the updated receiver: a
size mismatch against a nonzero receiver size fails with InvalidInput;
otherwise the new size is taken, ownership flags are OR-ed and the
external sets united. -/
def CompleteEntry.unionWith (self other : CompleteEntry) : Except ErrKind CompleteEntry :=
  if self.size ≠ 0 ∧ self.size ≠ other.size then .error .InvalidInput
  else .ok { size := other.size, owned_data := self.owned_data || other.owned_data,
             external := self.external ∪ other.external }

/-- Data about a long lived partial entry (flat.rs `PartialEntryData`). -/
structure PartialEntryData where
  size : Nat
  uuid : Uuid
deriving DecidableEq

/-- Data about a transient in-memory partial entry (flat.rs
`TransientPartialEntryData`): the target size and the memory buffer. -/
structure TransientPartialEntryData where
  size : Nat
  data : ByteStr
deriving DecidableEq

/-- The content tables of the redb metadata index (flat.rs COMPLETE_TABLE,
PARTIAL_TABLE, BLOBS_TABLE, OUTBOARDS_TABLE), each a map from hash to row. -/
structure Db where
  complete : Hash → Option CompleteEntry
  partialTable : Hash → Option PartialEntryData
  blobs : Hash → Option ByteStr
  outboards : Hash → Option ByteStr

/-- The in-memory state (flat.rs `State`): the live set, the temp tag
counters, and the transient partial entries (the source's third field,
a BTreeMap from hash to `TransientPartialEntryData`). -/
structure State where
  live : Finset Hash
  temp : Multiset (Hash × Nat)
  transientMap : Hash → Option TransientPartialEntryData

/-- Modelled from the spec: `TempCounterMap` (crate::store, a dependency
of flat.rs that is not under src/) is a reference-counted multiset keyed
by hash-and-format pairs; a hash is contained when any format has a
positive count ("a hash is live iff it is in the live-set OR has any
temp-tag count"). -/
def tempContains (temp : Multiset (Hash × Nat)) (h : Hash) : Bool :=
  decide (0 < temp.countP (fun p => p.1 = h))

/-- flat.rs Store::is_live: in the live set or temp tagged. -/
def isLive (s : State) (h : Hash) : Bool :=
  decide (h ∈ s.live) || tempContains s.temp h

/-- flat.rs Store::clear_live: clears the live set and nothing else. -/
def clearLive (s : State) : State := { s with live := ∅ }

/-- flat.rs Store::add_live: extends the live set and nothing else. -/
def addLive (s : State) (elements : List Hash) : State :=
  { s with live := s.live ∪ elements.toFinset }

/-- Status of an entry (crate::store EntryStatus; its three variants are
fixed by the spec and by the uses in flat.rs). -/
inductive EntryStatus where
  | NotFound
  | PartialFound
  | Complete
deriving DecidableEq

/-- flat.rs Store::entry_status_impl: the transient in-memory map is
checked first, then the complete table, then the partial table. -/
def entryStatus (st : State) (db : Db) (h : Hash) : EntryStatus :=
  if (st.transientMap h).isSome then .PartialFound
  else if (db.complete h).isSome then .Complete
  else if (db.partialTable h).isSome then .PartialFound
  else .NotFound

/-! ### Union of complete entries (claim C3) -/

/-- C3 counterexample: two complete entries of differing sizes (receiver
size 0, as produced by CompleteEntry::default at every union call site)
whose union succeeds instead of failing with InvalidInput. -/
theorem unionWith_mismatch_cex :
    CompleteEntry.defaultEntry.size ≠ (CompleteEntry.newDefault 5).size ∧
      CompleteEntry.unionWith CompleteEntry.defaultEntry (CompleteEntry.newDefault 5) =
        .ok (CompleteEntry.newDefault 5) := by
  constructor
  · decide
  · rfl

/-- C3 (amended): for two complete entries of equal size the union in
either order yields one same entry, with the common size, the OR of the
ownership flags and the union of the external sets; a size mismatch fails
with InvalidInput provided the receiver's size is nonzero (a receiver of
size 0 instead adopts the other entry's size). -/
theorem unionWith_comm_and_mismatch (a b : CompleteEntry) :
    (a.size = b.size → ∃ r, a.unionWith b = .ok r ∧ b.unionWith a = .ok r ∧
      r.size = b.size ∧ r.owned_data = (a.owned_data || b.owned_data) ∧
      r.external = a.external ∪ b.external) ∧
    (a.size ≠ 0 → a.size ≠ b.size → a.unionWith b = .error .InvalidInput) := by
  constructor
  · intro hsz
    refine ⟨⟨b.size, a.owned_data || b.owned_data, a.external ∪ b.external⟩, ?_, ?_, rfl, rfl, rfl⟩
    · unfold CompleteEntry.unionWith
      rw [if_neg (by omega)]
    · unfold CompleteEntry.unionWith
      rw [if_neg (by omega)]
      simp [hsz, Bool.or_comm, Finset.union_comm]
  · intro h0 hne
    unfold CompleteEntry.unionWith
    rw [if_pos ⟨h0, hne⟩]

/-- C3 witness: the amended theorem applied to two concrete entries of
equal size and to two concrete entries of mismatched nonzero sizes. -/
theorem unionWith_comm_and_mismatch_witness :
    (∃ r, (CompleteEntry.newDefault 7).unionWith (CompleteEntry.newExternal 7 [47, 97]) = .ok r ∧
      (CompleteEntry.newExternal 7 [47, 97]).unionWith (CompleteEntry.newDefault 7) = .ok r ∧
      r.size = 7 ∧ r.owned_data = true ∧ r.external = {[47, 97]}) ∧
    (CompleteEntry.newDefault 7).unionWith (CompleteEntry.newDefault 9) =
      .error .InvalidInput := by
  constructor
  · obtain ⟨r, h1, h2, h3, h4, h5⟩ :=
      (unionWith_comm_and_mismatch (CompleteEntry.newDefault 7)
        (CompleteEntry.newExternal 7 [47, 97])).1 rfl
    exact ⟨r, h1, h2, h3, h4, by rw [h5]; decide⟩
  · exact (unionWith_comm_and_mismatch (CompleteEntry.newDefault 7)
      (CompleteEntry.newDefault 9)).2 (by decide) (by decide)

/-! ### Entry status (claim C2) -/

/-- A fixed hash value for concrete counterexamples and witnesses. -/
def h0 : Hash := List.replicate 32 0

/-- A state whose transient in-memory map holds h0. -/
def c2State : State :=
  ⟨∅, 0, fun h => if h = h0 then some ⟨5, [1, 2, 3]⟩ else none⟩

/-- An index holding both a complete row and a partial row for h0. -/
def c2Db : Db where
  complete := fun h => if h = h0 then some (CompleteEntry.newDefault 5) else none
  partialTable := fun h => if h = h0 then some ⟨5, List.replicate 16 0⟩ else none
  blobs := fun _ => none
  outboards := fun _ => none

/-- C2 counterexample: a complete row and a partial row both exist for h0,
yet entry_status answers Partial, because the transient in-memory map also
holds h0 and is checked first. -/
theorem entryStatus_complete_partial_cex :
    (c2Db.complete h0).isSome = true ∧ (c2Db.partialTable h0).isSome = true ∧
      entryStatus c2State c2Db h0 = .PartialFound ∧
      entryStatus c2State c2Db h0 ≠ .Complete := by
  refine ⟨by decide, by decide, ?_, ?_⟩
  · rfl
  · decide

/-- C2 (amended): entry_status checks the in-memory partial map, then the
complete table, then the partial table; whenever both a complete row and a
partial-table row exist for a hash that has no transient in-memory entry,
the result is Complete (Complete wins over the partial table). -/
theorem entryStatus_order (st : State) (db : Db) (h : Hash) :
    ((st.transientMap h).isSome = true → entryStatus st db h = .PartialFound) ∧
    (st.transientMap h = none → (db.complete h).isSome = true →
      entryStatus st db h = .Complete) ∧
    (st.transientMap h = none → db.complete h = none → (db.partialTable h).isSome = true →
      entryStatus st db h = .PartialFound) ∧
    (st.transientMap h = none → db.complete h = none → db.partialTable h = none →
      entryStatus st db h = .NotFound) := by
  refine ⟨fun h1 => ?_, fun h1 h2 => ?_, fun h1 h2 h3 => ?_, fun h1 h2 h3 => ?_⟩
  · simp [entryStatus, h1]
  · simp [entryStatus, h1, h2]
  · simp [entryStatus, h1, h2, h3]
  · simp [entryStatus, h1, h2, h3]

/-- C2 witness: for a hash with no transient entry but with both table
rows, the order theorem yields Complete. -/
theorem entryStatus_order_witness :
    entryStatus ⟨∅, 0, fun _ => none⟩ c2Db h0 = .Complete :=
  (entryStatus_order ⟨∅, 0, fun _ => none⟩ c2Db h0).2.1 rfl (by decide)

/-! ### Clearing the live set (claim C8) -/

/-- C8: clear_live touches only the live set: a hash with a positive temp
tag count is still live afterwards, and the temp tag multiset and the
transient partial map are unchanged. -/
theorem clearLive_frame (s : State) (h : Hash) (fmt : Nat)
    (htag : 0 < s.temp.count (h, fmt)) :
    isLive (clearLive s) h = true ∧ (clearLive s).temp = s.temp ∧
      (clearLive s).transientMap = s.transientMap := by
  refine ⟨?_, rfl, rfl⟩
  have hmem : (h, fmt) ∈ s.temp := Multiset.count_pos.1 htag
  have hcp : 0 < s.temp.countP (fun p => p.1 = h) :=
    Multiset.countP_pos.2 ⟨(h, fmt), hmem, rfl⟩
  simp [isLive, clearLive, tempContains, hcp]

/-- C8 witness: the frame theorem applied to a concrete state holding one
temp tag for h0. -/
theorem clearLive_frame_witness :
    isLive (clearLive ⟨{h0}, {(h0, 85)}, fun _ => none⟩) h0 = true ∧
      (clearLive ⟨{h0}, {(h0, 85)}, fun _ => none⟩).temp = ({(h0, 85)} : Multiset (Hash × Nat)) ∧
      (clearLive ⟨{h0}, {(h0, 85)}, fun _ => none⟩).transientMap = (fun _ => none) :=
  clearLive_frame ⟨{h0}, {(h0, 85)}, fun _ => none⟩ h0 85 (by decide)

/-! ## Path layout (flat.rs `Options`) -/

/-- The character code of a slash. -/
def slashChar : Nat := 47

/-- Character codes of the complete directory name. -/
def completeDir : FsPath := [99, 111, 109, 112, 108, 101, 116, 101]

/-- Character codes of the partial directory name. -/
def partialDir : FsPath := [112, 97, 114, 116, 105, 97, 108]

/-- flat.rs Options::owned_data_path. -/
def ownedDataPath (h : Hash) : FsPath :=
  completeDir ++ slashChar :: (FileName.Data h).format

/-- flat.rs Options::owned_outboard_path. -/
def ownedOutboardPath (h : Hash) : FsPath :=
  completeDir ++ slashChar :: (FileName.Outboard h).format

/-- flat.rs Options::partial_data_path. -/
def partialDataPath (h : Hash) (u : Uuid) : FsPath :=
  partialDir ++ slashChar :: (FileName.PartialData h u).format

/-- flat.rs Options::partial_outboard_path. -/
def partialOutboardPath (h : Hash) (u : Uuid) : FsPath :=
  partialDir ++ slashChar :: (FileName.PartialOutboard h u).format

/-- flat.rs load_impl option: move_threshold, 128 KiB. -/
def moveThreshold : Nat := 1024 * 128

/-- flat.rs load_impl option: outboard_inline_threshold, 4 KiB + 8 B. -/
def outboardInlineThreshold : Nat := 1024 * 4 + 8

/-- flat.rs needs_outboard: the size strictly exceeds one block of
IROH_BLOCK_SIZE = 16384 bytes. -/
def needsOutboard (size : Nat) : Bool := decide (size > 16384)

/-! ## Deletion (flat.rs Store::delete_impl, claim C10) -/

/-- The index rows removed and the file paths collected for one hash by
the loop body of delete_impl: the complete row goes (collecting the owned
data path and, when an outboard is needed, the owned outboard path), the
partial row goes (collecting its two partial paths), and the inlined blob
goes. The outboards table is never opened. -/
structure DeleteAcc where
  db : Db
  dataFiles : List FsPath
  outboardFiles : List FsPath
  partialDataFiles : List FsPath
  partialOutboardFiles : List FsPath

/-- delete_impl loop, first step: `full_table.remove(hash)` with the
collection of the owned data and outboard paths. -/
def removeCompleteStep (acc : DeleteAcc) (h : Hash) : DeleteAcc :=
  match acc.db.complete h with
  | some entry =>
    { acc with
      db := { acc.db with complete := fun h2 => if h2 = h then none else acc.db.complete h2 }
      dataFiles := acc.dataFiles ++ (if entry.owned_data then [ownedDataPath h] else [])
      outboardFiles := acc.outboardFiles ++
        (if needsOutboard entry.size then [ownedOutboardPath h] else []) }
  | none => acc

/-- delete_impl loop, second step: `partial_table.remove(hash)` with the
collection of the partial data and outboard paths. -/
def removePartialStep (acc : DeleteAcc) (h : Hash) : DeleteAcc :=
  match acc.db.partialTable h with
  | some pe =>
    { acc with
      db := { acc.db with
        partialTable := fun h2 => if h2 = h then none else acc.db.partialTable h2 }
      partialDataFiles := acc.partialDataFiles ++ [partialDataPath h pe.uuid]
      partialOutboardFiles := acc.partialOutboardFiles ++
        (if needsOutboard pe.size then [partialOutboardPath h pe.uuid] else []) }
  | none => acc

/-- delete_impl loop, third step: `blobs_table.remove(hash)`. -/
def removeBlobStep (acc : DeleteAcc) (h : Hash) : DeleteAcc :=
  { acc with
    db := { acc.db with blobs := fun h2 => if h2 = h then none else acc.db.blobs h2 } }

/-- One iteration of the delete_impl loop for one hash. -/
def deleteOne (acc : DeleteAcc) (h : Hash) : DeleteAcc :=
  removeBlobStep (removePartialStep (removeCompleteStep acc h) h) h

/-- flat.rs Store::delete_impl over the index: the whole loop, run inside
one write transaction before the collected files are unlinked. -/
def deleteImpl (db : Db) (hashes : List Hash) : DeleteAcc :=
  hashes.foldl deleteOne ⟨db, [], [], [], []⟩

lemma removeCompleteStep_complete (acc : DeleteAcc) (h h2 : Hash) :
    (removeCompleteStep acc h).db.complete h2 =
      (if h2 = h then none else acc.db.complete h2) := by
  unfold removeCompleteStep
  rcases hc : acc.db.complete h with _ | e <;> by_cases hh : h2 = h <;> simp [hh, hc]

lemma removeCompleteStep_others (acc : DeleteAcc) (h : Hash) :
    (removeCompleteStep acc h).db.partialTable = acc.db.partialTable ∧
    (removeCompleteStep acc h).db.blobs = acc.db.blobs ∧
    (removeCompleteStep acc h).db.outboards = acc.db.outboards := by
  unfold removeCompleteStep
  rcases acc.db.complete h with _ | e <;> exact ⟨rfl, rfl, rfl⟩

lemma removePartialStep_partialTable (acc : DeleteAcc) (h h2 : Hash) :
    (removePartialStep acc h).db.partialTable h2 =
      (if h2 = h then none else acc.db.partialTable h2) := by
  unfold removePartialStep
  rcases hp : acc.db.partialTable h with _ | pe <;> by_cases hh : h2 = h <;> simp [hh, hp]

lemma removePartialStep_others (acc : DeleteAcc) (h : Hash) :
    (removePartialStep acc h).db.complete = acc.db.complete ∧
    (removePartialStep acc h).db.blobs = acc.db.blobs ∧
    (removePartialStep acc h).db.outboards = acc.db.outboards := by
  unfold removePartialStep
  rcases acc.db.partialTable h with _ | pe <;> exact ⟨rfl, rfl, rfl⟩

lemma deleteOne_outboards (acc : DeleteAcc) (h : Hash) :
    (deleteOne acc h).db.outboards = acc.db.outboards := by
  unfold deleteOne removeBlobStep
  simp only
  rw [(removePartialStep_others _ h).2.2, (removeCompleteStep_others _ h).2.2]

lemma deleteOne_complete_none (acc : DeleteAcc) (h h2 : Hash) :
    (deleteOne acc h).db.complete h2 = none ↔ (h2 = h ∨ acc.db.complete h2 = none) := by
  unfold deleteOne removeBlobStep
  simp only
  rw [(removePartialStep_others _ h).1, removeCompleteStep_complete]
  by_cases hh : h2 = h <;> simp [hh]

lemma deleteOne_partialTable_none (acc : DeleteAcc) (h h2 : Hash) :
    (deleteOne acc h).db.partialTable h2 = none ↔
      (h2 = h ∨ acc.db.partialTable h2 = none) := by
  unfold deleteOne removeBlobStep
  simp only
  rw [removePartialStep_partialTable, (removeCompleteStep_others _ h).1]
  by_cases hh : h2 = h <;> simp [hh]

lemma deleteOne_blobs_none (acc : DeleteAcc) (h h2 : Hash) :
    (deleteOne acc h).db.blobs h2 = none ↔ (h2 = h ∨ acc.db.blobs h2 = none) := by
  unfold deleteOne removeBlobStep
  simp only
  rw [(removePartialStep_others _ h).2.1, (removeCompleteStep_others _ h).2.1]
  by_cases hh : h2 = h <;> simp [hh]

lemma deleteImpl_aux (hashes : List Hash) (acc : DeleteAcc) (h : Hash) :
    ((h ∈ hashes ∨ acc.db.complete h = none) →
      (hashes.foldl deleteOne acc).db.complete h = none) ∧
    ((h ∈ hashes ∨ acc.db.partialTable h = none) →
      (hashes.foldl deleteOne acc).db.partialTable h = none) ∧
    ((h ∈ hashes ∨ acc.db.blobs h = none) →
      (hashes.foldl deleteOne acc).db.blobs h = none) ∧
    (hashes.foldl deleteOne acc).db.outboards = acc.db.outboards := by
  induction hashes generalizing acc with
  | nil => simp
  | cons x rest ih =>
    rw [List.foldl_cons]
    obtain ⟨ih1, ih2, ih3, ih4⟩ := ih (deleteOne acc x)
    refine ⟨fun hc => ?_, fun hc => ?_, fun hc => ?_, ?_⟩
    · apply ih1
      rcases hc with hmem | hnone
      · rcases List.mem_cons.1 hmem with rfl | hmem'
        · exact Or.inr ((deleteOne_complete_none acc h h).2 (Or.inl rfl))
        · exact Or.inl hmem'
      · exact Or.inr ((deleteOne_complete_none acc x h).2 (Or.inr hnone))
    · apply ih2
      rcases hc with hmem | hnone
      · rcases List.mem_cons.1 hmem with rfl | hmem'
        · exact Or.inr ((deleteOne_partialTable_none acc h h).2 (Or.inl rfl))
        · exact Or.inl hmem'
      · exact Or.inr ((deleteOne_partialTable_none acc x h).2 (Or.inr hnone))
    · apply ih3
      rcases hc with hmem | hnone
      · rcases List.mem_cons.1 hmem with rfl | hmem'
        · exact Or.inr ((deleteOne_blobs_none acc h h).2 (Or.inl rfl))
        · exact Or.inl hmem'
      · exact Or.inr ((deleteOne_blobs_none acc x h).2 (Or.inr hnone))
    · rw [ih4, deleteOne_outboards]

/-- C10: delete removes, for every listed hash, the complete row, the
partial row and the inlined blob, but leaves the outboards table
untouched, so an inlined outboard of a deleted hash stays behind in the
index. -/
theorem delete_removes_rows_keeps_outboards (db : Db) (hashes : List Hash) (h : Hash) :
    (h ∈ hashes →
      (deleteImpl db hashes).db.complete h = none ∧
      (deleteImpl db hashes).db.partialTable h = none ∧
      (deleteImpl db hashes).db.blobs h = none) ∧
    (deleteImpl db hashes).db.outboards h = db.outboards h := by
  obtain ⟨h1, h2, h3, h4⟩ := deleteImpl_aux hashes ⟨db, [], [], [], []⟩ h
  exact ⟨fun hm => ⟨h1 (Or.inl hm), h2 (Or.inl hm), h3 (Or.inl hm)⟩,
    by rw [deleteImpl, h4]⟩

/-- C10 witness: deleting h0 from a concrete index that holds a complete
row, a partial row, an inlined blob and an inlined outboard for h0 clears
the first three rows and leaves the outboard bytes in place. -/
theorem delete_removes_rows_keeps_outboards_witness :
    ((deleteImpl ⟨fun h => if h = h0 then some (CompleteEntry.newDefault 5) else none,
        fun h => if h = h0 then some ⟨99999, List.replicate 16 0⟩ else none,
        fun h => if h = h0 then some [1, 2] else none,
        fun h => if h = h0 then some [3, 4] else none⟩ [h0]).db.complete h0 = none ∧
      (deleteImpl ⟨fun h => if h = h0 then some (CompleteEntry.newDefault 5) else none,
        fun h => if h = h0 then some ⟨99999, List.replicate 16 0⟩ else none,
        fun h => if h = h0 then some [1, 2] else none,
        fun h => if h = h0 then some [3, 4] else none⟩ [h0]).db.partialTable h0 = none ∧
      (deleteImpl ⟨fun h => if h = h0 then some (CompleteEntry.newDefault 5) else none,
        fun h => if h = h0 then some ⟨99999, List.replicate 16 0⟩ else none,
        fun h => if h = h0 then some [1, 2] else none,
        fun h => if h = h0 then some [3, 4] else none⟩ [h0]).db.blobs h0 = none) ∧
    (deleteImpl ⟨fun h => if h = h0 then some (CompleteEntry.newDefault 5) else none,
        fun h => if h = h0 then some ⟨99999, List.replicate 16 0⟩ else none,
        fun h => if h = h0 then some [1, 2] else none,
        fun h => if h = h0 then some [3, 4] else none⟩ [h0]).db.outboards h0 =
      (fun h => if h = h0 then some [3, 4] else none) h0 := by
  have := delete_removes_rows_keeps_outboards
    ⟨fun h => if h = h0 then some (CompleteEntry.newDefault 5) else none,
      fun h => if h = h0 then some ⟨99999, List.replicate 16 0⟩ else none,
      fun h => if h = h0 then some [1, 2] else none,
      fun h => if h = h0 then some [3, 4] else none⟩ [h0] h0
  exact ⟨this.1 (by decide), this.2⟩

/-! ## Outboard computation (flat.rs compute_outboard, claim C7) -/

/-- Number of 16384-byte chunk groups of a blob in the bao tree layout: at
least one. Modelled from the bao_tree dependency (an external collaborator
per the spec), whose outboard has one 64-byte node per inner parent, hence
`groups - 1` nodes. -/
def chunkGroups (size : Nat) : Nat := max 1 ((size + 16383) / 16384)

/-- The byte length of the value `compute_outboard` builds before its final
size test: the post-order outboard flipped to pre-order with the 8-byte
little-endian size prepended (`into_inner_with_prefix`). -/
def outboardLenWithHeader (size : Nat) : Nat := 8 + 64 * (chunkGroups size - 1)

/-- flat.rs compute_outboard's returned outboard component: the buffer is
kept only when it is longer than the 8-byte size header (`ob.len() > 8`). -/
def computeOutboardKeepsBuffer (size : Nat) : Bool :=
  decide (outboardLenWithHeader size > 8)

/-- C7: compute_outboard returns None for the outboard component exactly
when size ≤ 16384 bytes, and Some exactly when size > 16384 bytes. -/
theorem compute_outboard_none_iff (size : Nat) :
    (computeOutboardKeepsBuffer size = false ↔ size ≤ 16384) ∧
    (computeOutboardKeepsBuffer size = true ↔ size > 16384) := by
  unfold computeOutboardKeepsBuffer outboardLenWithHeader chunkGroups
  constructor
  · rw [decide_eq_false_iff_not]
    omega
  · rw [decide_eq_true_iff]
    omega

/-! ## Export (flat.rs Store::export_impl, claim C1) -/

/-- The filesystem, as a map from paths to file contents. -/
abbrev Fs := FsPath → Option ByteStr

/-- Writing a file (std::fs::write, and the target half of a rename). -/
def fsWrite (fs : Fs) (p : FsPath) (content : ByteStr) : Fs :=
  fun q => if q = p then some content else fs q

/-- Removing a file (std::fs::remove_file, and the source half of a
rename). -/
def fsRemove (fs : Fs) (p : FsPath) : Fs :=
  fun q => if q = p then none else fs q

/-- Export mode (crate::store ExportMode; its two variants are fixed by
the spec and by the uses in flat.rs). -/
inductive ExportMode where
  | Copy
  | TryReference
deriving DecidableEq

/-- The first external path of an entry: BTreeSet iteration starts at the
minimum, modelled as the head of the sorted element list. -/
def firstExternal (s : Finset FsPath) : Option FsPath :=
  (s.sort (· ≤ ·)).head?

/-- A data handle of an Entry: inline bytes or a (path, size) pair
(flat.rs `MemOrFile` on the data side of `EntryData`). -/
inductive DataHandle where
  | Mem (bytes : ByteStr)
  | File (p : FsPath) (size : Nat)
deriving DecidableEq

/-- The data side of flat.rs Store::get_complete_entry: the inlined blob
when present, else the owned data path when `owned_data`, else the first
external path. The returned handle opens its file lazily; reading it
fails later if the path is gone from the filesystem. -/
def getDataHandle (db : Db) (h : Hash) (entry : CompleteEntry) : Except ErrKind DataHandle :=
  match db.blobs h with
  | some bytes => .ok (.Mem bytes)
  | none =>
    if entry.owned_data then .ok (.File (ownedDataPath h) entry.size)
    else
      match firstExternal entry.external with
      | some p => .ok (.File p entry.size)
      | none => .error .NotFound

/-- Opening and fully reading a data handle against the filesystem. -/
def readDataHandle (fs : Fs) : DataHandle → Except ErrKind ByteStr
  | .Mem bytes => .ok bytes
  | .File p _ =>
    match fs p with
    | some content => .ok content
    | none => .error .NotFound

/-- flat.rs Store::export_impl on the model state. Checks on the target
mirror the source: it must be absolute (a leading slash) and have a parent
(not be the bare root); `create_dir_all` has no effect in the model. An
inlined blob is written out directly. Otherwise the source path is the
owned data path or the first external path; the rename branch runs when
the size reaches move_threshold, the mode is TryReference and the data is
owned, and it records the target in the external set of the complete row,
leaving `owned_data` as it was. -/
def exportImpl (db : Db) (fs : Fs) (h : Hash) (target : FsPath) (mode : ExportMode) :
    Except ErrKind (Db × Fs) :=
  if target.head? ≠ some slashChar then .error .InvalidInput
  else if target = [slashChar] then .error .InvalidInput
  else
    match db.blobs h with
    | some data => .ok (db, fsWrite fs target data)
    | none =>
      match db.complete h with
      | none => .error .NotFound
      | some entry =>
        let src? : Except ErrKind FsPath :=
          if entry.owned_data then .ok (ownedDataPath h)
          else
            match firstExternal entry.external with
            | some p => .ok p
            | none => .error .NotFound
        match src? with
        | .error e => .error e
        | .ok source =>
          if entry.size ≥ moveThreshold ∧ mode = ExportMode.TryReference ∧
              entry.owned_data then
            match fs source with
            | none => .error .IoFailure
            | some content =>
              let fs2 := fsWrite (fsRemove fs source) target content
              let entry2 := { entry with external := insert target entry.external }
              .ok ({ db with
                complete := fun h2 => if h2 = h then some entry2 else db.complete h2 }, fs2)
          else
            match fs source with
            | none => .error .IoFailure
            | some content =>
              let fs2 := fsWrite fs target content
              if mode = ExportMode.TryReference then
                let entry2 := { entry with external := insert target entry.external }
                .ok ({ db with
                  complete := fun h2 => if h2 = h then some entry2 else db.complete h2 }, fs2)
              else .ok (db, fs2)

/-- The hash of the C1 scenario. -/
def c1Hash : Hash := List.replicate 32 1

/-- The export target of the C1 scenario: an absolute two-byte path. -/
def c1Target : FsPath := [47, 112]

/-- The owned complete entry of the C1 scenario, exactly move_threshold
bytes. -/
def c1Entry : CompleteEntry := CompleteEntry.newDefault (1024 * 128)

/-- The index of the C1 scenario: one owned complete blob, nothing
inlined. -/
def c1Db : Db where
  complete := fun h => if h = c1Hash then some c1Entry else none
  partialTable := fun _ => none
  blobs := fun _ => none
  outboards := fun _ => none

/-- The filesystem of the C1 scenario: only the owned data file exists. -/
def c1Fs : Fs := fun p => if p = ownedDataPath c1Hash then some [42] else none

/-- The complete entry after the C1 export: the target path is recorded in
the external set, but `owned_data` is still true. -/
def c1EntryAfter : CompleteEntry := { c1Entry with external := insert c1Target c1Entry.external }

/-- The index after the C1 export. -/
def c1DbAfter : Db :=
  { c1Db with complete := fun h2 => if h2 = c1Hash then some c1EntryAfter else c1Db.complete h2 }

/-- The filesystem after the C1 export: the owned data file renamed to the
target. -/
def c1FsAfter : Fs := fsWrite (fsRemove c1Fs (ownedDataPath c1Hash)) c1Target [42]

/-- C1: exporting an owned complete blob of size move_threshold with
TryReference renames the owned file to the target and records the target
in the external set, but `owned_data` remains true, so the subsequent get
selects the owned data path, which no longer exists on the filesystem:
reading the returned handle fails instead of reading from the target. -/
theorem export_tryreference_keeps_owned :
    exportImpl c1Db c1Fs c1Hash c1Target ExportMode.TryReference = .ok (c1DbAfter, c1FsAfter) ∧
      c1DbAfter.complete c1Hash = some c1EntryAfter ∧
      c1EntryAfter.owned_data = true ∧
      c1Target ∈ c1EntryAfter.external ∧
      c1FsAfter (ownedDataPath c1Hash) = none ∧
      c1FsAfter c1Target = some [42] ∧
      getDataHandle c1DbAfter c1Hash c1EntryAfter =
        .ok (.File (ownedDataPath c1Hash) (1024 * 128)) ∧
      readDataHandle c1FsAfter (.File (ownedDataPath c1Hash) (1024 * 128)) =
        .error .NotFound := by
  refine ⟨rfl, ?_, rfl, ?_, ?_, ?_, ?_, ?_⟩
  · show (if c1Hash = c1Hash then some c1EntryAfter else c1Db.complete c1Hash) =
      some c1EntryAfter
    rw [if_pos rfl]
  · simp [c1EntryAfter]
  · show (if ownedDataPath c1Hash = c1Target then some [42]
      else if ownedDataPath c1Hash = ownedDataPath c1Hash then none
      else c1Fs (ownedDataPath c1Hash)) = none
    rw [if_neg (by decide), if_pos rfl]
  · show (if c1Target = c1Target then some [42]
      else fsRemove c1Fs (ownedDataPath c1Hash) c1Target) = some [42]
    rw [if_pos rfl]
  · show getDataHandle c1DbAfter c1Hash c1EntryAfter =
      .ok (.File (ownedDataPath c1Hash) (1024 * 128))
    rfl
  · show (match c1FsAfter (ownedDataPath c1Hash) with
      | some content => Except.ok content
      | none => Except.error ErrKind.NotFound) = Except.error ErrKind.NotFound
    have : c1FsAfter (ownedDataPath c1Hash) = none := by
      show (if ownedDataPath c1Hash = c1Target then some [42]
        else if ownedDataPath c1Hash = ownedDataPath c1Hash then none
        else c1Fs (ownedDataPath c1Hash)) = none
      rw [if_neg (by decide), if_pos rfl]
    rw [this]

/-! ## Commit ordering (finalize_import_impl and insert_complete_impl,
claim C4) -/

/-- One observable effect of the commit sequences, in program order. -/
inductive Ev where
  | writeFile (p : FsPath)
  | renameFile (src dst : FsPath)
  | removeFile (p : FsPath)
  | readFile (p : FsPath)
  | commitRemovePartialRow (h : Hash)
  | commitCompleteRow (h : Hash)
deriving DecidableEq

/-- Whether an event is a filesystem rename. -/
def Ev.isRename : Ev → Bool
  | .renameFile _ _ => true
  | _ => false

/-- Whether an event is the commit of the write transaction that inserts
the complete-table row. -/
def Ev.isCommitComplete : Ev → Bool
  | .commitCompleteRow _ => true
  | _ => false

/-- The staged input of an import: a temp file in the partial directory
(copy mode, bytes, stream) or an external path used in place (flat.rs
`ImportData`). -/
inductive ImportSrc where
  | tempFile (p : FsPath)
  | externalPath (p : FsPath)

/-- Where finalize_import_impl put the computed outboard: absent (small
blob), inline bytes, or a temp outboard file. -/
inductive ObPlace where
  | noOb
  | inlineOb
  | fileOb (tmp : FsPath)

/-- The effects of flat.rs Store::finalize_import_impl after the outboard
computation, in program order: writing the temp outboard file when it is
too large to inline, reading the data into memory when no outboard is
needed, renaming the staged data file into place when owned, renaming the
temp outboard file into place, and finally committing the write
transaction that upserts the complete row (plus inline rows). -/
def finalizeImportEvents (h : Hash) (src : ImportSrc) (ob : ObPlace) : List Ev :=
  (match ob with
    | .fileOb tmp => [Ev.writeFile tmp]
    | _ => []) ++
  (match ob, src with
    | .noOb, .tempFile p => [Ev.readFile p]
    | .noOb, .externalPath p => [Ev.readFile p]
    | _, _ => []) ++
  (match src with
    | .tempFile p => [Ev.renameFile p (ownedDataPath h)]
    | .externalPath _ => []) ++
  (match ob with
    | .fileOb tmp => [Ev.renameFile tmp (ownedOutboardPath h)]
    | _ => []) ++
  [Ev.commitCompleteRow h]

/-- The effects of flat.rs Store::insert_complete_impl, file variant, in
program order: the first write transaction removes the partial row and
commits, the data file is renamed into place, the outboard temp file is
read and removed (when inlined) or renamed into place, and the second
write transaction upserts the complete row (plus the inline outboard) and
commits. -/
def insertCompleteFileEvents (h : Hash) (dataTmp : FsPath) (obTmp : Option FsPath)
    (inlineOb : Bool) : List Ev :=
  [Ev.commitRemovePartialRow h, Ev.renameFile dataTmp (ownedDataPath h)] ++
  (match obTmp, inlineOb with
    | some tmp, true => [Ev.readFile tmp, Ev.removeFile tmp]
    | some tmp, false => [Ev.renameFile tmp (ownedOutboardPath h)]
    | none, _ => []) ++
  [Ev.commitCompleteRow h]

lemma ordered_of_shape (l : List Ev) (h : Hash)
    (hnc : ∀ e ∈ l, e.isCommitComplete = false) :
    ∀ i j (hi : i < (l ++ [Ev.commitCompleteRow h]).length)
      (hj : j < (l ++ [Ev.commitCompleteRow h]).length),
      ((l ++ [Ev.commitCompleteRow h]).get ⟨i, hi⟩).isRename = true →
      ((l ++ [Ev.commitCompleteRow h]).get ⟨j, hj⟩).isCommitComplete = true → i < j := by
  intro i j hi hj hri hcj
  have hj2 : j = l.length := by
    by_contra hne
    have hjl : j < l.length := by simp at hj; omega
    have hget : (l ++ [Ev.commitCompleteRow h]).get ⟨j, hj⟩ = l.get ⟨j, hjl⟩ := by
      simp [List.get_eq_getElem, List.getElem_append_left hjl]
    rw [hget] at hcj
    have hfalse := hnc (l.get ⟨j, hjl⟩) (List.get_mem l j hjl)
    rw [hcj] at hfalse
    exact Bool.noConfusion hfalse
  subst hj2
  rcases Nat.lt_or_ge i l.length with hlt | hge
  · exact hlt
  · exfalso
    have hieq : i = l.length := by simp at hi; omega
    subst hieq
    have hget : (l ++ [Ev.commitCompleteRow h]).get ⟨l.length, hi⟩ =
        Ev.commitCompleteRow h := by
      simp [List.get_eq_getElem]
    rw [hget] at hri
    simp [Ev.isRename] at hri

lemma finalizeImportEvents_shape (h : Hash) (src : ImportSrc) (ob : ObPlace) :
    ∃ l, finalizeImportEvents h src ob = l ++ [Ev.commitCompleteRow h] ∧
      ∀ e ∈ l, e.isCommitComplete = false := by
  rcases src with p | p <;> rcases ob with _ | _ | tmp <;>
    exact ⟨_, rfl, by intro e he; fin_cases he <;> rfl⟩

lemma insertCompleteFileEvents_shape (h : Hash) (dataTmp : FsPath) (obTmp : Option FsPath)
    (inlineOb : Bool) :
    ∃ l, insertCompleteFileEvents h dataTmp obTmp inlineOb = l ++ [Ev.commitCompleteRow h] ∧
      ∀ e ∈ l, e.isCommitComplete = false := by
  rcases obTmp with _ | tmp <;> rcases inlineOb with _ | _ <;>
    exact ⟨_, rfl, by intro e he; fin_cases he <;> rfl⟩

/-- C4: in finalize_import_impl, and in the file variant of
insert_complete_impl, every filesystem rename event precedes the commit
of the write transaction that inserts the complete-table row. -/
theorem renames_before_complete_commit (h : Hash) (src : ImportSrc) (ob : ObPlace)
    (dataTmp : FsPath) (obTmp : Option FsPath) (inlineOb : Bool) :
    (∀ i j (hi : i < (finalizeImportEvents h src ob).length)
      (hj : j < (finalizeImportEvents h src ob).length),
      ((finalizeImportEvents h src ob).get ⟨i, hi⟩).isRename = true →
      ((finalizeImportEvents h src ob).get ⟨j, hj⟩).isCommitComplete = true → i < j) ∧
    (∀ i j (hi : i < (insertCompleteFileEvents h dataTmp obTmp inlineOb).length)
      (hj : j < (insertCompleteFileEvents h dataTmp obTmp inlineOb).length),
      ((insertCompleteFileEvents h dataTmp obTmp inlineOb).get ⟨i, hi⟩).isRename = true →
      ((insertCompleteFileEvents h dataTmp obTmp inlineOb).get ⟨j, hj⟩).isCommitComplete =
        true → i < j) := by
  constructor
  · obtain ⟨l, hl, hnc⟩ := finalizeImportEvents_shape h src ob
    intro i j hi hj
    have hi2 := hi
    have hj2 := hj
    rw [hl] at hi2 hj2
    have := ordered_of_shape l h hnc i j hi2 hj2
    intro hr hc
    apply this
    · rw [← hr]
      congr 1 <;> simp [hl]
    · rw [← hc]
      congr 1 <;> simp [hl]
  · obtain ⟨l, hl, hnc⟩ := insertCompleteFileEvents_shape h dataTmp obTmp inlineOb
    intro i j hi hj
    have hi2 := hi
    have hj2 := hj
    rw [hl] at hi2 hj2
    have := ordered_of_shape l h hnc i j hi2 hj2
    intro hr hc
    apply this
    · rw [← hr]
      congr 1 <;> simp [hl]
    · rw [← hc]
      congr 1 <;> simp [hl]

/-- C4 witness: in the concrete import trace of a copied file with a large
outboard, the data rename at index 1 precedes the complete-row commit at
index 3. -/
theorem renames_before_complete_commit_witness : (1 : Nat) < 3 :=
  (renames_before_complete_commit h0 (.tempFile [47, 116]) (.fileOb [47, 111])
    [47, 116] (some [47, 111]) false).1 1 3 (by decide) (by decide) (by decide) (by decide)

/-! ## Startup reconciliation of partial files (flat.rs
Store::scan_data_files, claim C6) -/

/-- One on-disk partial file of a hash during the startup scan. -/
inductive PFile where
  | dataFile (u : Uuid)
  | outboardFile (u : Uuid)
deriving DecidableEq

/-- What the scan reads from the partial directory about one hash: for
each uuid, whether each of the two files exists, the data file's current
size from its metadata, and the declared size in the outboard file's
first 8 bytes. -/
structure ScanEnv where
  hasData : Uuid → Bool
  hasOutboard : Uuid → Bool
  dataSize : Uuid → Nat
  declaredSize : Uuid → Nat

/-- Rust Iterator::max_by_key over a list with a Nat key: among several
equally maximal elements the last one wins. -/
def maxByKey {α : Type} (key : α → Nat) : List α → Option α
  | [] => none
  | x :: rest =>
    match maxByKey key rest with
    | none => some x
    | some a => if key a < key x then some x else some a

/-- The retain step of the scan: only uuids with both files survive. -/
def scanSurviving (env : ScanEnv) (uuids : List Uuid) : List Uuid :=
  uuids.filter (fun u => env.hasData u && env.hasOutboard u)

/-- The orphan files deleted by the retain step: a lone data file or a
lone outboard file. -/
def scanOrphanDeletes (env : ScanEnv) (uuids : List Uuid) : List PFile :=
  (uuids.filter (fun u => env.hasData u && !env.hasOutboard u)).map PFile.dataFile ++
  (uuids.filter (fun u => !env.hasData u && env.hasOutboard u)).map PFile.outboardFile

/-- The partial entry the scan keeps for one hash: none when the hash is
complete; otherwise the survivor with the greatest current data size
(max_by_key), kept only when that size is positive, carrying the declared
size read from the outboard header. -/
def scanKept (isComplete : Bool) (env : ScanEnv) (uuids : List Uuid) :
    Option PartialEntryData :=
  match (if isComplete then none
      else maxByKey (fun u => env.dataSize u) (scanSurviving env uuids)) with
  | some u => if 0 < env.dataSize u then some ⟨env.declaredSize u, u⟩ else none
  | none => none

/-- The surviving pairs the scan deletes: both files of every surviving
uuid other than the kept one. -/
def scanPairDeletes (isComplete : Bool) (env : ScanEnv) (uuids : List Uuid) : List PFile :=
  ((scanSurviving env uuids).filter
      (fun u => !(decide ((scanKept isComplete env uuids).map (fun e => e.uuid) = some u)))).flatMap
    (fun u => [PFile.dataFile u, PFile.outboardFile u])

/-- flat.rs Store::scan_data_files, partial reconciliation for one hash:
the kept partial entry and the deleted files. -/
def scanPartialOneHash (isComplete : Bool) (env : ScanEnv) (uuids : List Uuid) :
    Option PartialEntryData × List PFile :=
  (scanKept isComplete env uuids,
    scanOrphanDeletes env uuids ++ scanPairDeletes isComplete env uuids)

lemma maxByKey_eq_none {α : Type} (key : α → Nat) :
    ∀ {l : List α}, maxByKey key l = none → l = [] := by
  intro l hl
  cases l with
  | nil => rfl
  | cons x rest =>
    rw [maxByKey] at hl
    split at hl
    · exact absurd hl (by simp)
    · split at hl <;> exact absurd hl (by simp)

lemma maxByKey_mem {α : Type} (key : α → Nat) :
    ∀ (l : List α) (a : α), maxByKey key l = some a → a ∈ l := by
  intro l
  induction l with
  | nil => intro a ha; simp [maxByKey] at ha
  | cons x rest ih =>
    intro a ha
    rw [maxByKey] at ha
    split at ha
    · simp at ha
      simp [ha]
    · rename_i b hm
      split at ha
      · simp at ha
        simp [ha]
      · simp at ha
        subst ha
        exact List.mem_cons_of_mem x (ih b hm)

lemma maxByKey_ge {α : Type} (key : α → Nat) :
    ∀ (l : List α) (a : α), maxByKey key l = some a → ∀ x ∈ l, key x ≤ key a := by
  intro l
  induction l with
  | nil => intro a ha; simp [maxByKey] at ha
  | cons x rest ih =>
    intro a ha y hy
    rw [maxByKey] at ha
    split at ha
    · rename_i hm
      have hrest : rest = [] := maxByKey_eq_none key hm
      subst hrest
      simp at ha hy
      subst ha
      rw [hy]
    · rename_i b hm
      split at ha
      · rename_i hk
        simp at ha
        subst ha
        rcases List.mem_cons.1 hy with rfl | hy2
        · exact le_refl _
        · have := ih b hm y hy2
          omega
      · rename_i hk
        simp at ha
        subst ha
        rcases List.mem_cons.1 hy with rfl | hy2
        · omega
        · exact ih _ hm y hy2

lemma maxByKey_isSome {α : Type} (key : α → Nat) (l : List α) (hne : l ≠ []) :
    (maxByKey key l).isSome = true := by
  cases l with
  | nil => exact absurd rfl hne
  | cons x rest =>
    rw [maxByKey]
    rcases maxByKey key rest with _ | b
    · rfl
    · by_cases hk : key b < key x <;> simp [hk]

lemma maxByKey_of_strict_max {α : Type} (key : α → Nat) (l : List α) (u : α)
    (hu : u ∈ l) (hmax : ∀ v ∈ l, v = u ∨ key v < key u) :
    maxByKey key l = some u := by
  have hne : l ≠ [] := by intro he; rw [he] at hu; simp at hu
  rcases hm : maxByKey key l with _ | a
  · have hsome := maxByKey_isSome key l hne
    rw [hm] at hsome
    simp at hsome
  · have ha : a ∈ l := maxByKey_mem key l a hm
    have hge : key u ≤ key a := maxByKey_ge key l a hm u hu
    rcases hmax a ha with rfl | hlt
    · rfl
    · omega

/-- C6: during startup reconciliation of the partial files of one hash
(after dropping uuids missing one of the two files): if the hash is
complete no partial entry is kept; if the hash is not complete and some
uuid with both files strictly dominates the others in current data size
and that size is positive, exactly that uuid is kept, carrying the
declared size from its outboard header, its two files are not deleted,
and the (data, outboard) pair of every other surviving uuid is deleted;
if every surviving uuid has current size 0, nothing is kept. -/
theorem scan_partial_reconciliation (env : ScanEnv) (uuids : List Uuid) (u : Uuid) :
    ((scanPartialOneHash true env uuids).1 = none) ∧
    (u ∈ uuids → env.hasData u = true → env.hasOutboard u = true →
      0 < env.dataSize u →
      (∀ v ∈ uuids, v ≠ u → env.hasData v = true → env.hasOutboard v = true →
        env.dataSize v < env.dataSize u) →
      (scanPartialOneHash false env uuids).1 = some ⟨env.declaredSize u, u⟩ ∧
      PFile.dataFile u ∉ (scanPartialOneHash false env uuids).2 ∧
      PFile.outboardFile u ∉ (scanPartialOneHash false env uuids).2 ∧
      (∀ v ∈ uuids, v ≠ u → env.hasData v = true → env.hasOutboard v = true →
        PFile.dataFile v ∈ (scanPartialOneHash false env uuids).2 ∧
        PFile.outboardFile v ∈ (scanPartialOneHash false env uuids).2)) ∧
    ((∀ v ∈ uuids, env.hasData v = true → env.hasOutboard v = true →
        env.dataSize v = 0) →
      (scanPartialOneHash false env uuids).1 = none) := by
  have hfst : ∀ b, (scanPartialOneHash b env uuids).1 = scanKept b env uuids :=
    fun _ => rfl
  have hsnd : ∀ b, (scanPartialOneHash b env uuids).2 =
      scanOrphanDeletes env uuids ++ scanPairDeletes b env uuids := fun _ => rfl
  refine ⟨rfl, ?_, ?_⟩
  · intro humem hud huo hupos hdom
    have husurv : u ∈ scanSurviving env uuids := by
      rw [scanSurviving, List.mem_filter]
      exact ⟨humem, by rw [hud, huo]; rfl⟩
    have hstrict : ∀ v ∈ scanSurviving env uuids,
        v = u ∨ env.dataSize v < env.dataSize u := by
      intro v hv
      rw [scanSurviving, List.mem_filter] at hv
      obtain ⟨hv1, hv2⟩ := hv
      simp only [Bool.and_eq_true] at hv2
      by_cases hvu : v = u
      · exact Or.inl hvu
      · exact Or.inr (hdom v hv1 hvu hv2.1 hv2.2)
    have hbest : maxByKey (fun v => env.dataSize v) (scanSurviving env uuids) = some u :=
      maxByKey_of_strict_max _ _ u husurv hstrict
    have hkept : scanKept false env uuids = some ⟨env.declaredSize u, u⟩ := by
      unfold scanKept
      rw [if_neg (by simp), hbest]
      show (if 0 < env.dataSize u then some ⟨env.declaredSize u, u⟩ else none :
        Option PartialEntryData) = some ⟨env.declaredSize u, u⟩
      rw [if_pos hupos]
    have hkeep : (scanKept false env uuids).map (fun e => e.uuid) = some u := by
      rw [hkept]; rfl
    have hnotpair : ∀ w : Uuid, PFile.dataFile w ∉ scanPairDeletes false env uuids ∧
        PFile.outboardFile w ∉ scanPairDeletes false env uuids ∨
        (w ∈ scanSurviving env uuids ∧ w ≠ u) := by
      intro w
      by_cases hw : w ∈ scanSurviving env uuids ∧ w ≠ u
      · exact Or.inr hw
      · refine Or.inl ⟨?_, ?_⟩ <;>
          · intro hmem
            rw [scanPairDeletes, List.mem_flatMap] at hmem
            obtain ⟨v, hv, hveq⟩ := hmem
            rw [List.mem_filter, hkeep] at hv
            simp only [List.mem_cons, List.not_mem_nil, or_false] at hveq
            rcases hveq with hveq | hveq <;> cases hveq <;>
              · obtain ⟨hv1, hv2⟩ := hv
                simp at hv2
                exact hw ⟨hv1, fun hh => hv2 hh.symm⟩
    refine ⟨by rw [hfst]; exact hkept, ?_, ?_, ?_⟩
    · rw [hsnd]
      intro hmem
      rcases List.mem_append.1 hmem with horph | hpair
      · rw [scanOrphanDeletes] at horph
        rcases List.mem_append.1 horph with ho1 | ho2
        · rw [List.mem_map] at ho1
          obtain ⟨v, hv, hveq⟩ := ho1
          cases hveq
          rw [List.mem_filter] at hv
          simp [huo] at hv
        · rw [List.mem_map] at ho2
          obtain ⟨v, hv, hveq⟩ := ho2
          cases hveq
      · rcases hnotpair u with ⟨hn, _⟩ | ⟨_, hne⟩
        · exact hn hpair
        · exact hne rfl
    · rw [hsnd]
      intro hmem
      rcases List.mem_append.1 hmem with horph | hpair
      · rw [scanOrphanDeletes] at horph
        rcases List.mem_append.1 horph with ho1 | ho2
        · rw [List.mem_map] at ho1
          obtain ⟨v, hv, hveq⟩ := ho1
          cases hveq
        · rw [List.mem_map] at ho2
          obtain ⟨v, hv, hveq⟩ := ho2
          cases hveq
          rw [List.mem_filter] at hv
          simp [hud] at hv
      · rcases hnotpair u with ⟨_, hn⟩ | ⟨_, hne⟩
        · exact hn hpair
        · exact hne rfl
    · intro v hvmem hvu hvd hvo
      have hvsurv : v ∈ scanSurviving env uuids := by
        rw [scanSurviving, List.mem_filter]
        exact ⟨hvmem, by rw [hvd, hvo]; rfl⟩
      have hvfilter : v ∈ (scanSurviving env uuids).filter
          (fun w => !(decide ((scanKept false env uuids).map (fun e => e.uuid) = some w))) := by
        rw [List.mem_filter, hkeep]
        refine ⟨hvsurv, ?_⟩
        have huv : ¬ u = v := fun hh => hvu hh.symm
        simp [huv]
      constructor
      · rw [hsnd]
        apply List.mem_append.2
        apply Or.inr
        rw [scanPairDeletes, List.mem_flatMap]
        exact ⟨v, hvfilter, by simp⟩
      · rw [hsnd]
        apply List.mem_append.2
        apply Or.inr
        rw [scanPairDeletes, List.mem_flatMap]
        exact ⟨v, hvfilter, by simp⟩
  · intro hzero
    rw [hfst]
    unfold scanKept
    rw [if_neg (by simp)]
    rcases hm : maxByKey (fun v => env.dataSize v) (scanSurviving env uuids) with _ | a
    · rfl
    · have ha := maxByKey_mem _ _ a hm
      rw [scanSurviving, List.mem_filter] at ha
      obtain ⟨ha1, ha2⟩ := ha
      simp only [Bool.and_eq_true] at ha2
      have hz := hzero a ha1 ha2.1 ha2.2
      show (if 0 < env.dataSize a then some ⟨env.declaredSize a, a⟩ else none :
        Option PartialEntryData) = none
      rw [hz]
      rfl

/-- C6 witness: between two concrete uuids with both files, sizes 3 and 1,
the scan keeps the first (with its declared size 32768) and deletes the
second's pair. -/
theorem scan_partial_reconciliation_witness :
    (scanPartialOneHash false
        ⟨fun _ => true, fun _ => true,
          fun u => if u = [7] then 3 else 1, fun _ => 32768⟩ [[7], [9]]).1 =
      some ⟨32768, [7]⟩ ∧
    PFile.dataFile [9] ∈ (scanPartialOneHash false
        ⟨fun _ => true, fun _ => true,
          fun u => if u = [7] then 3 else 1, fun _ => 32768⟩ [[7], [9]]).2 := by
  have := (scan_partial_reconciliation
    ⟨fun _ => true, fun _ => true, fun u => if u = [7] then 3 else 1, fun _ => 32768⟩
    [[7], [9]] [7]).2.1 (by decide) rfl rfl (by decide) (by decide)
  exact ⟨this.1, (this.2.2.2 [9] (by decide) (by decide) rfl rfl).1⟩

end IrohFlat
